import Mathlib

/-!
Shallow embedding of `monitor_sensors_via_arduino_lcd_keypad_shield.ino`.

Machine integers are modelled as `Nat`/`Int`; analog samples are `Nat`
(the ADC range is 0..1023, and `getKey` compares them as unsigned);
the C `double` is modelled as `ℚ` (the arithmetic the formatter performs
is exact on the sample values the spec exercises); character buffers are
modelled as the list of characters the function writes, starting at the
front of the buffer, with the terminating NUL included.
-/

/-- The voltage threshold table `adcKeyVal` from the source. -/
def adcKeyVal : List Nat := [30, 150, 360, 535, 760]

/-- `NUM_KEYS`: number of keys, computed from the table as in the source. -/
def NUM_KEYS : Nat := adcKeyVal.length

/-- The scanning loop of `getKey`, generalised over the threshold table it
walks (the source walks `adcKeyVal`): `k` is the loop counter; the loop
returns the first index whose threshold is strictly greater than `input`,
and `-1` once the table is exhausted (in the source, the trailing
`if (k >= NUM_KEYS) k = -1` always fires after a completed loop). -/
def getKeyAux (input : Nat) : List Nat → Nat → Int
  | [], _ => -1
  | t :: rest, k => if input < t then (k : Int) else getKeyAux input rest (k + 1)

/-- `getKey` over an arbitrary threshold table (loop counter started at 0). -/
def getKeyTable (tbl : List Nat) (input : Nat) : Int :=
  getKeyAux input tbl 0

/-- `getKey` from the source: scan `adcKeyVal` for the first threshold
strictly greater than `input`; `-1` when none exceeds it. -/
def getKey (input : Nat) : Int :=
  getKeyTable adcKeyVal input

/-- Tags for the three sensor handler functions (function pointers in the
source; their display behaviour is outside the embedded core). -/
inductive SensorHandler where
  | tempSensorHandler
  | lightSensorHandler
  | pirSensorHandler
deriving DecidableEq, Repr

/-- `sensorT`: a sensor descriptor, pin number plus handler. -/
structure sensorT where
  pin : Int
  handler : SensorHandler
deriving DecidableEq, Repr

/-- The `sensors` array from the source, in declaration order. -/
def sensors : List sensorT :=
  [⟨2, SensorHandler.tempSensorHandler⟩,
   ⟨3, SensorHandler.lightSensorHandler⟩,
   ⟨3, SensorHandler.pirSensorHandler⟩]

/-- `NUM_SENSORS`, computed from the array as in the source. -/
def NUM_SENSORS : Int := sensors.length

/-- One invocation of the keypad poller `checkLCDKeypad`, as a function of
the current `sensorIndex` and the two analog readings the invocation takes
(`r1` before the debounce delay, `r2` after).  Returns the new
`sensorIndex`; every other effect of the routine (the delay) is timing. -/
def checkLCDKeypad (sensorIndex : Int) (r1 r2 : Nat) : Int :=
  let key1 := getKey r1
  if key1 ≠ -1 then
    let key2 := getKey r2
    if key2 ≥ 0 then
      let s1 := if key2 = 1 then sensorIndex + 1
                else if key2 = 2 then sensorIndex - 1
                else sensorIndex
      let s2 := if s1 < 0 then NUM_SENSORS - 1 else s1
      if s2 ≥ NUM_SENSORS then 0 else s2
    else sensorIndex
  else sensorIndex

/-- The digit-accumulation loop of `fmt_unsigned`: builds the digit string
least-significant-first in `dbuf`, stopping when the quotient reaches 0 or
`dbuf`'s 10 slots are full (`fuel` is the remaining slots).  Always emits
at least one digit when fuel remains. -/
def digitLoop : Nat → Nat → List Char
  | 0, _ => []
  | fuel + 1, v =>
    let d := Char.ofNat (v % 10 + 48)
    if v / 10 = 0 then [d] else d :: digitLoop fuel (v / 10)

/-- The copy loop of `fmt_unsigned`: `blen` is the remaining buffer length
(pre-decremented before the test, so at most `blen - 1` characters are
written), `padding` the number of leading zeroes still owed, `msd` the
digits most-significant-first (the source indexes `dbuf` downwards). -/
def copyLoop : Nat → Nat → List Char → List Char
  | 0, _, _ => []
  | 1, _, _ => []
  | b + 2, padding, msd =>
    match padding, msd with
    | p + 1, _ => '0' :: copyLoop (b + 1) p msd
    | 0, c :: rest => c :: copyLoop (b + 1) 0 rest
    | 0, [] => []

/-- `fmt_unsigned (value, buf, blen, width)` from the source.  The buffer is
modelled by its presence flag `bufPresent` (a null pointer in C) and its
capacity `blen`; the result is the pair (characters written starting at the
front of the buffer, NUL terminator included; the returned length). -/
def fmt_unsigned (value : Nat) (bufPresent : Bool) (blen : Nat) (width : Nat) :
    List Char × Nat :=
  if bufPresent = false ∨ blen = 0 then ([], 0)
  else
    let dbuf := digitLoop 10 value
    let idx := dbuf.length
    let padding := if width > idx then width - idx else 0
    let written := copyLoop blen padding dbuf.reverse
    (written ++ [Char.ofNat 0], written.length)

/-- The C cast `(unsigned long) value` as applied in `fmt_double`: every
such cast in the source is applied to a non-negative value, where
truncation toward zero is the floor. -/
def castULong (q : ℚ) : Nat := q.floor.toNat

/-- `fmt_double (value, prec, buf, blen)` from the source, on exact
rationals.  Result: the characters written starting at the front of the
buffer, NUL terminator included (every NUL written by an inner
`fmt_unsigned` call is overwritten by the next character the routine
emits, so the writes concatenate). -/
def fmt_double (value : ℚ) (prec0 : Nat) (bufPresent : Bool) (blen0 : Nat) :
    List Char :=
  if bufPresent = false ∨ blen0 = 0 then []
  else
    let prec := if prec0 > 6 then 6 else prec0
    let blen1 := blen0 - 1
    if blen1 = 0 then [Char.ofNat 0]
    else
      let sign : List Char := if value < 0 then ['-'] else []
      let v : ℚ := if value < 0 then -value else value
      let blen2 := if value < 0 then blen1 - 1 else blen1
      let mult : Nat := 10 ^ prec
      let roundingFactor : ℚ := (1 / 2) / ((10 : ℚ) ^ prec)
      let v2 : ℚ := if blen2 > 0 then v + roundingFactor else v
      let intPart : List Char × Nat :=
        if blen2 > 0 then
          let r := fmt_unsigned (castULong v2) true blen2 0
          (r.1.dropLast, r.2)
        else ([], 0)
      let blen3 := blen2 - intPart.2
      let fracPart : List Char :=
        if prec > 0 ∧ blen3 > 0 then
          let blen4 := blen3 - 1
          if blen4 > 0 then
            let fracVal := castULong ((v2 - (castULong v2 : ℚ)) * mult)
            '.' :: (fmt_unsigned fracVal true blen4 prec).1.dropLast
          else ['.']
        else []
      sign ++ intPart.1 ++ fracPart ++ [Char.ofNat 0]
section C1helpers

theorem getKeyAux_of_all_le (s : Nat) :
    ∀ (tbl : List Nat) (k0 : Nat), (∀ t ∈ tbl, t ≤ s) → getKeyAux s tbl k0 = -1 := by
  intro tbl
  induction tbl with
  | nil => intro k0 _; rfl
  | cons t rest ih =>
    intro k0 h
    have ht : t ≤ s := h t (List.mem_cons_self t rest)
    simp only [getKeyAux, if_neg (by omega : ¬ s < t)]
    exact ih (k0 + 1) fun x hx => h x (List.mem_cons_of_mem t hx)

theorem getKeyAux_eq_of (s : Nat) :
    ∀ (tbl : List Nat) (k0 j : Nat), j < tbl.length → s < tbl.getD j 0 →
      (∀ i, i < j → tbl.getD i 0 ≤ s) → getKeyAux s tbl k0 = ((k0 + j : Nat) : Int) := by
  intro tbl
  induction tbl with
  | nil => intro k0 j hj; simp at hj
  | cons t rest ih =>
    intro k0 j hj hlt hbelow
    cases j with
    | zero =>
      simp only [List.getD_cons_zero] at hlt
      simp [getKeyAux, hlt]
    | succ j' =>
      have ht : t ≤ s := by
        have := hbelow 0 (Nat.succ_pos j')
        simpa using this
      simp only [getKeyAux, if_neg (by omega : ¬ s < t)]
      have h1 : j' < rest.length := by simpa [List.length_cons] using hj
      have h2 : s < rest.getD j' 0 := by simpa using hlt
      have h3 : ∀ i, i < j' → rest.getD i 0 ≤ s := by
        intro i hi
        have := hbelow (i + 1) (by omega)
        simpa using this
      have := ih (k0 + 1) j' h1 h2 h3
      rw [this]
      congr 1
      omega

theorem getKeyAux_inv (s : Nat) :
    ∀ (tbl : List Nat) (k0 k : Nat), getKeyAux s tbl k0 = (k : Int) →
      k0 ≤ k ∧ k - k0 < tbl.length ∧ s < tbl.getD (k - k0) 0 ∧
      (∀ i, i < k - k0 → tbl.getD i 0 ≤ s) := by
  intro tbl
  induction tbl with
  | nil =>
    intro k0 k h
    simp only [getKeyAux] at h
    omega
  | cons t rest ih =>
    intro k0 k h
    simp only [getKeyAux] at h
    by_cases hlt : s < t
    · rw [if_pos hlt] at h
      have hk : k0 = k := by exact_mod_cast h
      subst hk
      refine ⟨le_refl _, by simp, ?_, ?_⟩
      · simpa [Nat.sub_self] using hlt
      · intro i hi; omega
    · rw [if_neg hlt] at h
      obtain ⟨h1, h2, h3, h4⟩ := ih (k0 + 1) k h
      refine ⟨by omega, by simp [List.length_cons]; omega, ?_, ?_⟩
      · have : k - k0 = (k - (k0 + 1)) + 1 := by omega
        rw [this]
        simpa using h3
      · intro i hi
        cases i with
        | zero => simpa using (by omega : t ≤ s)
        | succ i' =>
          have := h4 i' (by omega)
          simpa using this

end C1helpers

/-- C1: for every ascending threshold table and raw sample `s`, the scanning
loop of `getKey` returns exactly the unique index `k` with `s < tbl[k]` and
(`k = 0` or `tbl[k-1] ≤ s`); when `s` is at or above the last entry it
returns `-1`; and the program's `getKey` is this scan over `adcKeyVal`,
which is strictly ascending. -/
theorem getKey_decodes_threshold_bands (tbl : List Nat) (s : Nat)
    (hasc : List.Chain' (· < ·) tbl) :
    (∀ k : Nat, k < tbl.length →
      (getKeyTable tbl s = (k : Int) ↔
        (s < tbl.getD k 0 ∧ (k = 0 ∨ tbl.getD (k - 1) 0 ≤ s)))) ∧
    (∀ l, tbl.getLast? = some l → l ≤ s → getKeyTable tbl s = -1) ∧
    getKey s = getKeyTable adcKeyVal s ∧ List.Chain' (· < ·) adcKeyVal := by
  have hpw : List.Pairwise (· < ·) tbl := List.chain'_iff_pairwise.mp hasc
  have hmono : ∀ i j, i < j → (hj : j < tbl.length) →
      tbl.getD i 0 < tbl.getD j 0 := by
    intro i j hij hj
    have hi : i < tbl.length := lt_trans hij hj
    rw [List.getD_eq_getElem _ _ hi, List.getD_eq_getElem _ _ hj]
    exact List.pairwise_iff_getElem.mp hpw i j hi hj hij
  refine ⟨?_, ?_, rfl, by simp [adcKeyVal]⟩
  · intro k hk
    constructor
    · intro h
      obtain ⟨-, h2, h3, h4⟩ := getKeyAux_inv s tbl 0 k h
      rw [Nat.sub_zero] at h3 h4
      refine ⟨h3, ?_⟩
      rcases Nat.eq_zero_or_pos k with h0 | h0
      · exact Or.inl h0
      · exact Or.inr (h4 (k - 1) (by omega))
    · rintro ⟨h1, h2⟩
      have hbelow : ∀ i, i < k → tbl.getD i 0 ≤ s := by
        intro i hi
        rcases h2 with h0 | hle
        · omega
        · rcases Nat.lt_or_ge i (k - 1) with hlt | hge
          · have := hmono i (k - 1) hlt (by omega)
            omega
          · have : i = k - 1 := by omega
            subst this
            exact hle
      have := getKeyAux_eq_of s tbl 0 k hk h1 hbelow
      simpa [getKeyTable] using this
  · intro l hl hle
    apply getKeyAux_of_all_le
    intro t ht
    obtain ⟨i, hi, hti⟩ := List.mem_iff_getElem.mp ht
    have hlast : l = tbl.getD (tbl.length - 1) 0 := by
      have hne : tbl ≠ [] := by rintro rfl; simp at hl
      have hlen : 0 < tbl.length := List.length_pos.mpr hne
      rw [List.getLast?_eq_getElem? ] at hl
      rw [List.getD_eq_getElem _ _ (by omega : tbl.length - 1 < tbl.length)]
      have := List.getElem?_eq_getElem (l := tbl) (by omega : tbl.length - 1 < tbl.length)
      rw [this] at hl
      exact (Option.some_inj.mp hl).symm
    rcases Nat.lt_or_ge i (tbl.length - 1) with hlt | hge
    · have := hmono i (tbl.length - 1) hlt (by omega)
      rw [List.getD_eq_getElem _ _ hi] at this
      omega
    · have : i = tbl.length - 1 := by omega
      subst this
      rw [hlast, List.getD_eq_getElem _ _ (by omega)] at hle
      omega

/-- Witness for C1 at the program's own table: sample 200 decodes to key 2,
the band `adcKeyVal[1] = 150 ≤ 200 < 360 = adcKeyVal[2]`. -/
theorem getKey_decodes_threshold_bands_witness :
    List.Chain' (· < ·) adcKeyVal ∧ (2 : Nat) < adcKeyVal.length ∧
    getKeyTable adcKeyVal 200 = ((2 : Nat) : Int) ∧
    200 < adcKeyVal.getD 2 0 ∧ ((2 : Nat) = 0 ∨ adcKeyVal.getD (2 - 1) 0 ≤ 200) := by
  refine ⟨by simp [adcKeyVal], by decide, ?_, by decide, by decide⟩
  exact ((getKey_decodes_threshold_bands adcKeyVal 200 (by simp [adcKeyVal])).1 2 (by decide)).mpr
    (by decide)

/-- C2: if `sensorIndex` is in `[0, NUM_SENSORS)` before an invocation of
`checkLCDKeypad`, it is again in `[0, NUM_SENSORS)` afterwards, for every
pair of analog readings. -/
theorem checkLCDKeypad_preserves_range (i : Int) (r1 r2 : Nat)
    (h0 : 0 ≤ i) (h1 : i < NUM_SENSORS) :
    0 ≤ checkLCDKeypad i r1 r2 ∧ checkLCDKeypad i r1 r2 < NUM_SENSORS := by
  have hN : NUM_SENSORS = 3 := by decide
  unfold checkLCDKeypad
  dsimp only
  split
  · split
    · split <;> split <;> split <;> omega
    · omega
  · omega

/-- Witness for C2: from index 0 with readings 200 (key 2 twice), the new
index 2 is again in range. -/
theorem checkLCDKeypad_preserves_range_witness :
    (0 : Int) ≤ 0 ∧ (0 : Int) < NUM_SENSORS ∧
    (0 ≤ checkLCDKeypad 0 200 200 ∧ checkLCDKeypad 0 200 200 < NUM_SENSORS) :=
  ⟨by decide, by decide, checkLCDKeypad_preserves_range 0 200 200 (by decide) (by decide)⟩

/-- C3: a confirmed Down press from index 0 yields `NUM_SENSORS - 1`; a
confirmed Up press from index `NUM_SENSORS - 1` yields 0; and (with the
program's 3 sensors) three consecutive confirmed Up presses from index 0
return the index to 0. -/
theorem checkLCDKeypad_wraparound (r1 r2 r3 r4 r5 r6 r7 r8 : Nat)
    (hd1 : getKey r1 ≠ -1) (hd2 : getKey r2 = 2)
    (hu1 : getKey r3 ≠ -1) (hu2 : getKey r4 = 1)
    (h1 : getKey r5 ≠ -1) (h2 : getKey r6 = 1)
    (h3 : getKey r7 ≠ -1) (h4 : getKey r8 = 1) :
    checkLCDKeypad 0 r1 r2 = NUM_SENSORS - 1 ∧
    checkLCDKeypad (NUM_SENSORS - 1) r3 r4 = 0 ∧
    checkLCDKeypad (checkLCDKeypad (checkLCDKeypad 0 r3 r4) r5 r6) r7 r8 = 0 := by
  have hN : NUM_SENSORS = 3 := by decide
  refine ⟨?_, ?_, ?_⟩
  · unfold checkLCDKeypad
    rw [if_pos hd1, hd2]
    norm_num [hN]
  · unfold checkLCDKeypad
    rw [if_pos hu1, hu2]
    norm_num [hN]
  · have s1 : checkLCDKeypad 0 r3 r4 = 1 := by
      unfold checkLCDKeypad
      rw [if_pos hu1, hu2]
      norm_num [hN]
    have s2 : checkLCDKeypad 1 r5 r6 = 2 := by
      unfold checkLCDKeypad
      rw [if_pos h1, h2]
      norm_num [hN]
    have s3 : checkLCDKeypad 2 r7 r8 = 0 := by
      unfold checkLCDKeypad
      rw [if_pos h3, h4]
      norm_num [hN]
    rw [s1, s2, s3]

/-- Witness for C3: reading 200 decodes to the Down key (2), reading 100 to
the Up key (1). -/
theorem checkLCDKeypad_wraparound_witness :
    getKey 200 ≠ -1 ∧ getKey 100 = 1 ∧ getKey 200 = 2 ∧
    checkLCDKeypad 0 200 200 = NUM_SENSORS - 1 ∧
    checkLCDKeypad (NUM_SENSORS - 1) 100 100 = 0 ∧
    checkLCDKeypad (checkLCDKeypad (checkLCDKeypad 0 100 100) 100 100) 100 100 = 0 := by
  have h := checkLCDKeypad_wraparound 200 200 100 100 100 100 100 100
    (by decide) (by decide) (by decide) (by decide)
    (by decide) (by decide) (by decide) (by decide)
  exact ⟨by decide, by decide, by decide, h.1, h.2.1, h.2.2⟩

/-- C4 counterexample: at index 0, the first reading 200 decodes to key 2
but the post-debounce reading 100 decodes to the different key 1 (not
NONE); the claim says the index is unchanged, yet the poller — which never
compares the two decoded keys — moves it from 0 to 1. -/
theorem checkLCDKeypad_different_key_mutates :
    getKey 200 = 2 ∧ getKey 100 = 1 ∧ getKey 100 ≠ getKey 200 ∧
    getKey 100 ≠ -1 ∧ checkLCDKeypad 0 200 100 = 1 ∧
    checkLCDKeypad 0 200 100 ≠ 0 := by decide

/-- C4 amended: if the first sample decodes to a key but the post-debounce
sample decodes to NONE, the selected sensor index is unchanged (a second
sample decoding to a different bound key instead acts on that second key). -/
theorem checkLCDKeypad_none_rejected (i : Int) (r1 r2 : Nat)
    (h1 : getKey r1 ≠ -1) (h2 : getKey r2 = -1) :
    checkLCDKeypad i r1 r2 = i := by
  unfold checkLCDKeypad
  rw [if_pos h1, h2]
  norm_num

/-- Witness for the amended C4: reading 100 is key 1, reading 1000 decodes
to NONE, the index stays 0. -/
theorem checkLCDKeypad_none_rejected_witness :
    getKey 100 ≠ -1 ∧ getKey 1000 = -1 ∧ checkLCDKeypad 0 100 1000 = 0 :=
  ⟨by decide, by decide, checkLCDKeypad_none_rejected 0 100 1000 (by decide) (by decide)⟩

/-- C8: when the confirmed (second) key is neither the Up key (1) nor the
Down key (2), an invocation from an in-range index leaves the selected
sensor index unchanged. -/
theorem checkLCDKeypad_unbound_key_noop (i : Int) (r1 r2 : Nat)
    (h0 : 0 ≤ i) (h1 : i < NUM_SENSORS)
    (hne1 : getKey r2 ≠ 1) (hne2 : getKey r2 ≠ 2) :
    checkLCDKeypad i r1 r2 = i := by
  have hN : NUM_SENSORS = 3 := by decide
  unfold checkLCDKeypad
  dsimp only
  rw [if_neg hne1, if_neg hne2]
  split_ifs <;> omega

/-- Witness for C8: reading 10 decodes to key 0, which has no bound action;
the index stays 0. -/
theorem checkLCDKeypad_unbound_key_noop_witness :
    (0 : Int) ≤ 0 ∧ (0 : Int) < NUM_SENSORS ∧ getKey 10 ≠ 1 ∧ getKey 10 ≠ 2 ∧
    checkLCDKeypad 0 10 10 = 0 :=
  ⟨by decide, by decide, by decide, by decide,
   checkLCDKeypad_unbound_key_noop 0 10 10 (by decide) (by decide)
     (by decide) (by decide)⟩

/-- The default descriptor used for out-of-range `List.getD` lookups in
statements (never actually selected). -/
def defaultSensor : sensorT := ⟨0, SensorHandler.tempSensorHandler⟩

/-- C9 counterexample: the temperature descriptor `sensors[0]` has pin 2,
the light descriptor `sensors[1]` has pin 3 — they do not share a pin. -/
theorem sensors_temp_light_pins_differ :
    (sensors.getD 0 defaultSensor).pin = 2 ∧
    (sensors.getD 1 defaultSensor).pin = 3 ∧
    (sensors.getD 0 defaultSensor).pin ≠ (sensors.getD 1 defaultSensor).pin := by
  decide

/-- C9 amended: the shared pin is between the light descriptor `sensors[1]`
and the PIR descriptor `sensors[2]`, both on pin 3; the temperature
descriptor uses pin 2. -/
theorem sensors_light_pir_share_pin :
    (sensors.getD 1 defaultSensor).pin = (sensors.getD 2 defaultSensor).pin ∧
    (sensors.getD 1 defaultSensor).pin = 3 ∧
    (sensors.getD 0 defaultSensor).pin = 2 := by
  decide

section FormatterLemmas

theorem copyLoop_length_le (b : Nat) : ∀ (p : Nat) (l : List Char),
    (copyLoop b p l).length ≤ b - 1 := by
  induction b using Nat.strong_induction_on with
  | _ b ih =>
    intro p l
    match b, p, l with
    | 0, _, _ => simp [copyLoop]
    | 1, _, _ => simp [copyLoop]
    | b + 2, p + 1, l =>
      have := ih (b + 1) (by omega) p l
      simp only [copyLoop, List.length_cons]
      omega
    | b + 2, 0, [] => simp [copyLoop]
    | b + 2, 0, c :: rest =>
      have := ih (b + 1) (by omega) 0 rest
      simp only [copyLoop, List.length_cons]
      omega

theorem copyLoop_zero_padding (b : Nat) : ∀ (l : List Char),
    copyLoop b 0 l = l.take (b - 1) := by
  induction b using Nat.strong_induction_on with
  | _ b ih =>
    intro l
    match b, l with
    | 0, l => simp [copyLoop]
    | 1, l => simp [copyLoop]
    | b + 2, [] => simp [copyLoop]
    | b + 2, c :: rest =>
      have := ih (b + 1) (by omega) rest
      simp only [copyLoop, this]
      rfl

theorem copyLoop_full (b : Nat) : ∀ (p : Nat) (l : List Char),
    p + l.length ≤ b - 1 → copyLoop b p l = List.replicate p '0' ++ l := by
  induction b using Nat.strong_induction_on with
  | _ b ih =>
    intro p l h
    match b, p, l with
    | 0, p, l =>
      have hp : p = 0 := by omega
      have hl : l = [] := by
        cases l with
        | nil => rfl
        | cons c rest => exfalso; simp only [List.length_cons] at h; omega
      subst hp; subst hl; simp [copyLoop]
    | 1, p, l =>
      have hp : p = 0 := by omega
      have hl : l = [] := by
        cases l with
        | nil => rfl
        | cons c rest => exfalso; simp only [List.length_cons] at h; omega
      subst hp; subst hl; simp [copyLoop]
    | b + 2, p + 1, l =>
      have := ih (b + 1) (by omega) p l (by omega)
      simp only [copyLoop, this, List.replicate_succ, List.cons_append]
    | b + 2, 0, [] => simp [copyLoop]
    | b + 2, 0, c :: rest =>
      have := ih (b + 1) (by omega) 0 rest
        (by simp only [List.length_cons] at h; omega)
      simp only [copyLoop, this, List.replicate_zero, List.nil_append]

theorem digitLoop_ne_nil (fuel v : Nat) : digitLoop (fuel + 1) v ≠ [] := by
  simp only [digitLoop]
  split <;> simp

theorem digitLoop_eq_digits (fuel : Nat) : ∀ (v : Nat), 0 < v → v < 10 ^ fuel →
    digitLoop fuel v = (Nat.digits 10 v).map fun d => Char.ofNat (d + 48) := by
  induction fuel with
  | zero => intro v h1 h2; simp at h2; omega
  | succ f ih =>
    intro v h1 h2
    rw [Nat.digits_def' (by norm_num : 1 < 10) h1]
    simp only [digitLoop, List.map_cons]
    by_cases h : v / 10 = 0
    · rw [if_pos h, h]
      simp
    · rw [if_neg h]
      have hlt : v / 10 < 10 ^ f := by
        rw [Nat.div_lt_iff_lt_mul (by norm_num : 0 < 10)]
        calc v < 10 ^ (f + 1) := h2
        _ = 10 ^ f * 10 := by ring
      rw [ih (v / 10) (Nat.pos_of_ne_zero h) hlt]

end FormatterLemmas

/-- C6: `fmt_unsigned` with an absent buffer or capacity 0 writes nothing
and returns 0; otherwise it writes at most `blen - 1` characters, the NUL
terminator sits at index equal to the returned length (strictly below
`blen`), every byte written lies inside the buffer, and when the capacity
covers `width + 1` bytes the output is the decimal digits left-padded with
zeroes to `width`; in particular `fmt_unsigned 1234` in capacity 6 gives
`"1234"` (length 4) and `fmt_unsigned 7` with width 3 gives `"007"`. -/
theorem fmt_unsigned_safety :
    (∀ v b w, fmt_unsigned v false b w = ([], 0)) ∧
    (∀ v p w, fmt_unsigned v p 0 w = ([], 0)) ∧
    (∀ v b w, b ≠ 0 →
      (fmt_unsigned v true b w).2 ≤ b - 1 ∧
      (fmt_unsigned v true b w).1.length = (fmt_unsigned v true b w).2 + 1 ∧
      (fmt_unsigned v true b w).1.length ≤ b ∧
      (fmt_unsigned v true b w).1.getD (fmt_unsigned v true b w).2 'x' =
        Char.ofNat 0) ∧
    (∀ v b w, (digitLoop 10 v).length ≤ w → w + 1 ≤ b →
      (fmt_unsigned v true b w).1 =
        List.replicate (w - (digitLoop 10 v).length) '0' ++
          (digitLoop 10 v).reverse ++ [Char.ofNat 0] ∧
      (fmt_unsigned v true b w).2 = w) ∧
    fmt_unsigned 1234 true 6 0 = (['1', '2', '3', '4', Char.ofNat 0], 4) ∧
    fmt_unsigned 7 true 6 3 = (['0', '0', '7', Char.ofNat 0], 3) := by
  refine ⟨?_, ?_, ?_, ?_, by decide, by decide⟩
  · intro v b w; simp [fmt_unsigned]
  · intro v p w; simp [fmt_unsigned]
  · intro v b w hb
    have hcond : ¬ (true = false ∨ b = 0) := by simp [hb]
    simp only [fmt_unsigned, if_neg hcond, gt_iff_lt]
    have hlen := copyLoop_length_le b
      (if (digitLoop 10 v).length < w then w - (digitLoop 10 v).length else 0)
      (digitLoop 10 v).reverse
    refine ⟨hlen, by simp, ?_, ?_⟩
    · simp only [List.length_append, List.length_cons, List.length_nil]
      omega
    · rw [List.getD_eq_getElem?_getD, List.getElem?_concat_length]
      rfl
  · intro v b w hw hb
    have hcond : ¬ (true = false ∨ b = 0) := by simp; omega
    simp only [fmt_unsigned, if_neg hcond]
    have hpad : (if w > (digitLoop 10 v).length then w - (digitLoop 10 v).length
        else 0) = w - (digitLoop 10 v).length := by
      split <;> omega
    rw [hpad]
    have hfull := copyLoop_full b (w - (digitLoop 10 v).length)
      (digitLoop 10 v).reverse (by simp [List.length_reverse]; omega)
    rw [hfull]
    refine ⟨by simp, ?_⟩
    simp [List.length_append, List.length_replicate, List.length_reverse]
    omega

/-- Witness for C6: the bound conjuncts instantiated at `fmt_unsigned 1234`
in capacity 6 and the padding conjunct at `fmt_unsigned 7` with width 3. -/
theorem fmt_unsigned_safety_witness :
    ((fmt_unsigned 1234 true 6 0).2 ≤ 6 - 1 ∧
     (fmt_unsigned 1234 true 6 0).1.length = (fmt_unsigned 1234 true 6 0).2 + 1 ∧
     (fmt_unsigned 1234 true 6 0).1.length ≤ 6 ∧
     (fmt_unsigned 1234 true 6 0).1.getD (fmt_unsigned 1234 true 6 0).2 'x' =
       Char.ofNat 0) ∧
    ((fmt_unsigned 7 true 6 3).1 =
       List.replicate (3 - (digitLoop 10 7).length) '0' ++
         (digitLoop 10 7).reverse ++ [Char.ofNat 0] ∧
     (fmt_unsigned 7 true 6 3).2 = 3) :=
  ⟨fmt_unsigned_safety.2.2.1 1234 6 0 (by decide),
   fmt_unsigned_safety.2.2.2.1 7 6 3 (by decide) (by decide)⟩

/-- C5 counterexample: `fmt_unsigned 12345` in capacity 3 writes `"12"` —
the two most-significant digits — not the least-significant digits `"45"`
the claim describes; the 2-character result is null-terminated. -/
theorem fmt_unsigned_truncation_keeps_leading :
    (fmt_unsigned 12345 true 3 0).1 = ['1', '2', Char.ofNat 0] ∧
    (fmt_unsigned 12345 true 3 0).2 = 2 ∧
    (fmt_unsigned 12345 true 3 0).1 ≠ ['4', '5', Char.ofNat 0] := by decide

/-- C5 amended: when the decimal digit count of `v` exceeds `blen - 1`
(width 0), `fmt_unsigned` writes the `blen - 1` MOST-significant digits —
the result loses the trailing (least-significant) digits, not the leading
ones — and is still null-terminated with returned length `blen - 1`. -/
theorem fmt_unsigned_truncates_trailing (v b : Nat) (hb : b ≠ 0)
    (hv : 0 < v) (hsmall : v < 10 ^ 10)
    (hover : b - 1 < (Nat.digits 10 v).length) :
    (fmt_unsigned v true b 0).1 =
      (((Nat.digits 10 v).reverse.map fun d => Char.ofNat (d + 48)).take (b - 1))
        ++ [Char.ofNat 0] ∧
    (fmt_unsigned v true b 0).2 = b - 1 := by
  have hdl : digitLoop 10 v = (Nat.digits 10 v).map fun d => Char.ofNat (d + 48) :=
    digitLoop_eq_digits 10 v hv hsmall
  have hcond : ¬ (true = false ∨ b = 0) := by simp [hb]
  simp only [fmt_unsigned, if_neg hcond, hdl, List.length_map]
  have hpad : (if 0 > (Nat.digits 10 v).length then
      0 - (Nat.digits 10 v).length else 0) = 0 := by simp
  rw [hpad, copyLoop_zero_padding]
  rw [← List.map_reverse]
  constructor
  · rfl
  · simp only [List.length_take, List.length_map, List.length_reverse]
    omega

/-- Witness for the amended C5: `fmt_unsigned 12345` in capacity 3 keeps
`"12"` and returns 2. -/
theorem fmt_unsigned_truncates_trailing_witness :
    (fmt_unsigned 12345 true 3 0).1 =
      (((Nat.digits 10 12345).reverse.map fun d => Char.ofNat (d + 48)).take
        (3 - 1)) ++ [Char.ofNat 0] ∧
    (fmt_unsigned 12345 true 3 0).2 = 3 - 1 :=
  fmt_unsigned_truncates_trailing 12345 3 (by decide) (by decide) (by norm_num)
    (by norm_num [Nat.digits_def'])

section DoubleLemmas

theorem rat_floor_eq_int_floor (q : ℚ) : q.floor = ⌊q⌋ := by
  apply le_antisymm
  · exact Int.le_floor.mpr (Rat.le_floor.mp le_rfl)
  · exact Rat.le_floor.mpr (Int.floor_le q)

theorem castULong_eq (q : ℚ) : castULong q = (⌊q⌋).toNat := by
  unfold castULong
  rw [rat_floor_eq_int_floor]

theorem digitLoop_length_pos (n : Nat) : 1 ≤ (digitLoop 10 n).length := by
  have h := digitLoop_ne_nil 9 n
  cases hd : digitLoop 10 n with
  | nil => exact absurd hd h
  | cons c rest => simp

theorem fmt_unsigned_full_nowidth (n blen : Nat)
    (h : (digitLoop 10 n).length + 1 ≤ blen) :
    (fmt_unsigned n true blen 0).1 = (digitLoop 10 n).reverse ++ [Char.ofNat 0] ∧
    (fmt_unsigned n true blen 0).2 = (digitLoop 10 n).length := by
  have hd1 := digitLoop_length_pos n
  have hcond : ¬ (true = false ∨ blen = 0) := by simp; omega
  simp only [fmt_unsigned, if_neg hcond]
  have hpad : (if 0 > (digitLoop 10 n).length then 0 - (digitLoop 10 n).length
      else 0) = 0 := by simp
  rw [hpad, copyLoop_zero_padding]
  have htake : ((digitLoop 10 n).reverse).take (blen - 1) =
      (digitLoop 10 n).reverse := by
    apply List.take_of_length_le
    simp only [List.length_reverse]
    omega
  rw [htake]
  exact ⟨rfl, by simp⟩

theorem fmt_unsigned_padded (n blen w : Nat)
    (hw : (digitLoop 10 n).length ≤ w) (hb : w + 1 ≤ blen) :
    (fmt_unsigned n true blen w).1 =
      List.replicate (w - (digitLoop 10 n).length) '0' ++
        (digitLoop 10 n).reverse ++ [Char.ofNat 0] ∧
    (fmt_unsigned n true blen w).2 = w := by
  have hcond : ¬ (true = false ∨ blen = 0) := by simp; omega
  simp only [fmt_unsigned, if_neg hcond]
  have hpad : (if w > (digitLoop 10 n).length then w - (digitLoop 10 n).length
      else 0) = w - (digitLoop 10 n).length := by split <;> omega
  rw [hpad, copyLoop_full blen (w - (digitLoop 10 n).length)
    (digitLoop 10 n).reverse (by simp only [List.length_reverse]; omega)]
  refine ⟨by simp, ?_⟩
  simp only [List.length_append, List.length_replicate, List.length_reverse]
  omega

theorem fmt_double_clamp (q : ℚ) (n b : Nat) (hn : 6 < n) :
    fmt_double q n true b = fmt_double q 6 true b := by
  unfold fmt_double
  rw [if_pos (show n > 6 from hn), if_neg (show ¬ ((6:Nat) > 6) by omega)]

theorem fmt_double_neg (q : ℚ) (n b : Nat) (hq : q < 0) (hb : 2 ≤ b) :
    fmt_double q n true b = '-' :: fmt_double (-q) n true (b - 1) := by
  have hq' : ¬ (-q < 0) := by linarith
  have hc1 : ¬ (true = false ∨ b = 0) := by simp; omega
  have hc2 : ¬ (true = false ∨ b - 1 = 0) := by simp; omega
  unfold fmt_double
  simp only [if_neg hc1, if_neg hc2, if_pos hq, if_neg hq']
  by_cases h2 : b = 2
  · subst h2
    norm_num
  · have hb1 : ¬ (b - 1 = 0) := by omega
    have hb2 : ¬ (b - 1 - 1 = 0) := by omega
    simp only [if_neg hb1, if_neg hb2]
    rfl

theorem fmt_double_shape (v : ℚ) (p b n f : Nat)
    (hv : 0 ≤ v) (hp : 0 < p) (hp6 : p ≤ 6)
    (hn : castULong (v + 1 / 2 / (10 : ℚ) ^ p) = n)
    (hf : castULong ((v + 1 / 2 / (10 : ℚ) ^ p - (n : ℚ)) * ((10 ^ p : ℕ) : ℚ)) = f)
    (hcap : (digitLoop 10 n).length + p + 3 ≤ b)
    (hfrac : (digitLoop 10 f).length ≤ p) :
    fmt_double v p true b =
      (digitLoop 10 n).reverse ++
        '.' :: (List.replicate (p - (digitLoop 10 f).length) '0' ++
          (digitLoop 10 f).reverse) ++ [Char.ofNat 0] := by
  have hdn1 := digitLoop_length_pos n
  have hc1 : ¬ (true = false ∨ b = 0) := by simp; omega
  have hb1 : ¬ (b - 1 = 0) := by omega
  have hv' : ¬ (v < 0) := not_lt.mpr hv
  have hprec : (if p > 6 then 6 else p) = p := by
    rw [if_neg (by omega : ¬ (p > 6))]
  unfold fmt_double
  simp only [if_neg hc1, if_neg hb1, if_neg hv', hprec]
  have hblen2 : (0 : Nat) < b - 1 := by omega
  simp only [if_pos hblen2]
  rw [hn]
  obtain ⟨hint1, hint2⟩ := fmt_unsigned_full_nowidth n (b - 1) (by omega)
  rw [hint1, hint2, List.dropLast_concat]
  have hblen3 : 0 < b - 1 - (digitLoop 10 n).length := by omega
  simp only [if_pos (And.intro hp hblen3)]
  have hblen4 : 0 < b - 1 - (digitLoop 10 n).length - 1 := by omega
  simp only [if_pos hblen4]
  rw [hf]
  obtain ⟨hfr1, hfr2⟩ := fmt_unsigned_padded f (b - 1 - (digitLoop 10 n).length - 1)
    p hfrac (by omega)
  rw [hfr1, List.dropLast_concat]
  simp

end DoubleLemmas

/-- C7: `fmt_double` clamps precision to at most 6; a negative value emits a
leading `-` and formats the absolute value with one byte less of capacity;
with the `0.5 / 10^prec` rounding offset, `3.14159` at precision 2 gives
`"3.14"` and `9.999` gives `"10.00"` (carry into the integral part), and the
fractional part is zero-padded to the precision width (`0.05`, not `0.5`). -/
theorem fmt_double_rounding :
    (∀ (q : ℚ) (n b : Nat), 6 < n → fmt_double q n true b = fmt_double q 6 true b) ∧
    (∀ (q : ℚ) (n b : Nat), q < 0 → 2 ≤ b →
      fmt_double q n true b = '-' :: fmt_double (-q) n true (b - 1)) ∧
    fmt_double (314159 / 100000) 2 true 16 = ['3', '.', '1', '4', Char.ofNat 0] ∧
    fmt_double (9999 / 1000) 2 true 16 = ['1', '0', '.', '0', '0', Char.ofNat 0] ∧
    fmt_double (1 / 20) 2 true 16 = ['0', '.', '0', '5', Char.ofNat 0] := by
  refine ⟨fmt_double_clamp, fmt_double_neg, ?_, ?_, ?_⟩
  · have hn1 : castULong (314159 / 100000 + 1 / 2 / (10 : ℚ) ^ 2) = 3 := by
      rw [castULong_eq,
        show ⌊(314159 / 100000 + 1 / 2 / (10 : ℚ) ^ 2)⌋ = 3 from by
          rw [Int.floor_eq_iff]; norm_num]
      rfl
    have hf1 : castULong ((314159 / 100000 + 1 / 2 / (10 : ℚ) ^ 2 - ((3 : ℕ) : ℚ)) *
        ((10 ^ 2 : ℕ) : ℚ)) = 14 := by
      rw [castULong_eq,
        show ⌊((314159 / 100000 + 1 / 2 / (10 : ℚ) ^ 2 - ((3 : ℕ) : ℚ)) *
            ((10 ^ 2 : ℕ) : ℚ))⌋ = 14 from by
          rw [Int.floor_eq_iff]; push_cast; norm_num]
      rfl
    rw [fmt_double_shape (314159 / 100000) 2 16 3 14 (by norm_num) (by norm_num)
      (by norm_num) hn1 hf1 (by decide) (by decide)]
    decide
  · have hn2 : castULong (9999 / 1000 + 1 / 2 / (10 : ℚ) ^ 2) = 10 := by
      rw [castULong_eq,
        show ⌊(9999 / 1000 + 1 / 2 / (10 : ℚ) ^ 2)⌋ = 10 from by
          rw [Int.floor_eq_iff]; norm_num]
      rfl
    have hf2 : castULong ((9999 / 1000 + 1 / 2 / (10 : ℚ) ^ 2 - ((10 : ℕ) : ℚ)) *
        ((10 ^ 2 : ℕ) : ℚ)) = 0 := by
      rw [castULong_eq,
        show ⌊((9999 / 1000 + 1 / 2 / (10 : ℚ) ^ 2 - ((10 : ℕ) : ℚ)) *
            ((10 ^ 2 : ℕ) : ℚ))⌋ = 0 from by
          rw [Int.floor_eq_iff]; push_cast; norm_num]
      rfl
    rw [fmt_double_shape (9999 / 1000) 2 16 10 0 (by norm_num) (by norm_num)
      (by norm_num) hn2 hf2 (by decide) (by decide)]
    decide
  · have hn3 : castULong (1 / 20 + 1 / 2 / (10 : ℚ) ^ 2) = 0 := by
      rw [castULong_eq,
        show ⌊(1 / 20 + 1 / 2 / (10 : ℚ) ^ 2)⌋ = 0 from by
          rw [Int.floor_eq_iff]; norm_num]
      rfl
    have hf3 : castULong ((1 / 20 + 1 / 2 / (10 : ℚ) ^ 2 - ((0 : ℕ) : ℚ)) *
        ((10 ^ 2 : ℕ) : ℚ)) = 5 := by
      rw [castULong_eq,
        show ⌊((1 / 20 + 1 / 2 / (10 : ℚ) ^ 2 - ((0 : ℕ) : ℚ)) *
            ((10 ^ 2 : ℕ) : ℚ))⌋ = 5 from by
          rw [Int.floor_eq_iff]; push_cast; norm_num]
      rfl
    rw [fmt_double_shape (1 / 20) 2 16 0 5 (by norm_num) (by norm_num)
      (by norm_num) hn3 hf3 (by decide) (by decide)]
    decide

/-- Witness for C7: the clamp conjunct at precision 7 and the sign conjunct
at value `-1/2`, both in capacity 8. -/
theorem fmt_double_rounding_witness :
    fmt_double (1 / 2) 7 true 8 = fmt_double (1 / 2) 6 true 8 ∧
    fmt_double (-(1 / 2)) 2 true 8 = '-' :: fmt_double (-(-(1 / 2))) 2 true (8 - 1) :=
  ⟨fmt_double_rounding.1 (1 / 2) 7 8 (by norm_num),
   fmt_double_rounding.2.1 (-(1 / 2)) 2 8 (by norm_num) (by norm_num)⟩

/-- C10: for every non-negative value and positive precision, `fmt_double`
with buffer capacity exactly 2 writes `"."` — zero integral digits fit, yet
the decimal point is emitted — with the NUL terminator inside the 2 bytes. -/
theorem fmt_double_capacity_two (v : ℚ) (p : Nat) (hv : 0 ≤ v) (hp : 0 < p) :
    fmt_double v p true 2 = ['.', Char.ofNat 0] := by
  have hfu : ∀ m : Nat, fmt_unsigned m true 1 0 = ([Char.ofNat 0], 0) := by
    intro m
    have hcond : ¬ (true = false ∨ (1 : Nat) = 0) := by simp
    simp only [fmt_unsigned, if_neg hcond]
    have h1 : ∀ (pd : Nat) (l : List Char), copyLoop 1 pd l = [] := fun pd l => rfl
    rw [h1]
    simp
  have hc1 : ¬ (true = false ∨ (2 : Nat) = 0) := by simp
  have hv' : ¬ (v < 0) := not_lt.mpr hv
  have hp' : 0 < (if p > 6 then 6 else p) := by split <;> omega
  unfold fmt_double
  simp only [if_neg hc1, if_neg hv']
  norm_num
  rw [hfu]
  simp only [List.dropLast_single]
  norm_num
  rw [if_pos hp']
  rfl

/-- Witness for C10 at value 0, precision 1. -/
theorem fmt_double_capacity_two_witness :
    fmt_double 0 1 true 2 = ['.', Char.ofNat 0] :=
  fmt_double_capacity_two 0 1 (by norm_num) (by norm_num)
